import Mathlib

/-!
Verification of the animated scene-graph and skinning engine of `src/src/core.py`.

The Python classes `KeyFrames`, `TransformKeyFrames`, `Node`, `KeyFrameControlNode`,
`SkinningControlNode`, `SkinnedMesh`, `TexturedPhongMeshSkinned` and the per-vertex
skin-weight construction in `load_textured_phong_mesh_skinned` are shallowly embedded
below.  Times, weights and matrix entries are modelled by `ℚ`; lists replace numpy
arrays.  The helper functions imported from `transform.py` (`lerp`, `quaternion_slerp`,
`translate`, `scale`, `quaternion_matrix`, `identity`) are not part of the repository
snapshot under `src/`, so they are modelled from the spec where needed; each such
definition is marked `Modelled from the spec:` in its doc comment.
-/

namespace Core

/-- Rational 3-vectors, standing in for numpy length-3 float arrays. -/
abbrev Vec3 := Fin 3 → ℚ

/-- Rational quaternions as raw 4-vectors of components. -/
abbrev Quat := Fin 4 → ℚ

/-- Homogeneous 4×4 rational matrices, standing in for numpy 4×4 float arrays. -/
abbrev M4 := Matrix (Fin 4) (Fin 4) ℚ

/-- Embedding of the `KeyFrames` object state after `__init__` (`core.py` 888-896):
the parallel `times`/`values` lists and the stored pluggable interpolation function.
The value type `V` is generic, exactly as in the Python class. -/
structure KeyFrames (V : Type) where
  times : List ℚ
  values : List V
  interp : V → V → ℚ → V

/-- Embedding of Python's `bisect.bisect_left` (stdlib, used at `core.py` 908):
on a sorted list it returns the leftmost insertion point, i.e. the index of the
first element that is `≥` the query, written here as the length of the longest
prefix of elements `< x`. -/
def bisect_left : List ℚ → ℚ → ℕ
  | [], _ => 0
  | t :: ts, x => if t < x then bisect_left ts x + 1 else 0

/-- Embedding of `KeyFrames.value` (`core.py` 898-915).  Python indexing such as
`self.times[0]` and `self.values[len(self.times) - 1]` is rendered with `List.getD`;
the claims below always supply bounds under which `getD` agrees with true indexing.
Note the code indexes `values` by `len(self.times) - 1` in the clamp-high branch. -/
def KeyFrames.value {V : Type} [Inhabited V] (kf : KeyFrames V) (time : ℚ) : V :=
  if time ≤ kf.times.getD 0 0 then kf.values.getD 0 default
  else if kf.times.getD (kf.times.length - 1) 0 ≤ time then
    kf.values.getD (kf.times.length - 1) default
  else
    let i := bisect_left kf.times time
    let f := (time - kf.times.getD (i - 1) 0) /
      (kf.times.getD i 0 - kf.times.getD (i - 1) 0)
    kf.interp (kf.values.getD i default) (kf.values.getD (i - 1) default) f

/- Basic facts about `bisect_left`, none of which needs sortedness. -/

lemma bisect_left_le_length (l : List ℚ) (x : ℚ) : bisect_left l x ≤ l.length := by
  induction l with
  | nil => simp [bisect_left]
  | cons t ts ih =>
      by_cases h : t < x
      · simpa [bisect_left, h] using ih
      · simp [bisect_left, h]

lemma getD_lt_of_lt_bisect_left (l : List ℚ) (x : ℚ) :
    ∀ j, j < bisect_left l x → l.getD j 0 < x := by
  induction l with
  | nil => intro j hj; simp [bisect_left] at hj
  | cons t ts ih =>
      intro j hj
      by_cases h : t < x
      · cases j with
        | zero => simpa using h
        | succ j =>
            simp only [bisect_left, h, if_pos] at hj
            exact (by simpa using ih j (Nat.lt_of_succ_lt_succ hj))
      · simp [bisect_left, h] at hj

lemma le_getD_bisect_left (l : List ℚ) (x : ℚ)
    (h : bisect_left l x < l.length) : x ≤ l.getD (bisect_left l x) 0 := by
  induction l with
  | nil => simp [bisect_left] at h
  | cons t ts ih =>
      by_cases hb : t < x
      · have h' : bisect_left ts x < ts.length := by
          simpa [bisect_left, hb, Nat.succ_lt_succ_iff] using h
        simpa [bisect_left, hb] using ih h'
      · simpa [bisect_left, hb] using le_of_not_lt hb

lemma bisect_left_lt_length (l : List ℚ) (x : ℚ) (hne : l ≠ [])
    (hlast : ¬ l.getD (l.length - 1) 0 < x) : bisect_left l x < l.length := by
  rcases Nat.lt_or_ge (bisect_left l x) l.length with h | h
  · exact h
  · exfalso
    have hlen : bisect_left l x = l.length :=
      le_antisymm (bisect_left_le_length l x) h
    have hpos : 0 < l.length := List.length_pos.2 hne
    have : l.getD (l.length - 1) 0 < x :=
      getD_lt_of_lt_bisect_left l x _ (by omega)
    exact hlast this

lemma bisect_left_pos (l : List ℚ) (x : ℚ) (hne : l ≠ [])
    (h0 : l.getD 0 0 < x) : 0 < bisect_left l x := by
  rcases Nat.eq_zero_or_pos (bisect_left l x) with h | h
  · exfalso
    have hlt : bisect_left l x < l.length := by
      rw [h]; exact List.length_pos.2 hne
    have := le_getD_bisect_left l x hlt
    rw [h] at this
    exact absurd h0 (not_lt.2 this)
  · exact h

lemma bisect_left_eq_of_bounds (l : List ℚ) (x : ℚ) (j : ℕ) (hj : j < l.length)
    (hlow : ∀ k, k < j → l.getD k 0 < x) (hhigh : ¬ l.getD j 0 < x) :
    bisect_left l x = j := by
  rcases Nat.lt_trichotomy (bisect_left l x) j with h | h | h
  · exfalso
    have hb : bisect_left l x < l.length := lt_trans h hj
    have := le_getD_bisect_left l x hb
    exact absurd (hlow _ h) (not_lt.2 this)
  · exact h
  · exfalso
    exact hhigh (getD_lt_of_lt_bisect_left l x j h)

/- Strictly increasing times: a chain of `<` gives pointwise comparisons. -/

lemma chain_getD_lt {l : List ℚ} (hchain : l.Chain' (· < ·))
    {i j : ℕ} (hij : i < j) (hj : j < l.length) : l.getD i 0 < l.getD j 0 := by
  have hp : l.Pairwise (· < ·) := List.chain'_iff_pairwise.1 hchain
  have hi : i < l.length := lt_trans hij hj
  rw [List.getD_eq_getElem l 0 hi, List.getD_eq_getElem l 0 hj]
  exact List.pairwise_iff_get.1 hp ⟨i, hi⟩ ⟨j, hj⟩ hij

/- Clamp behaviour of `KeyFrames.value` (the two leading branches of the code). -/

lemma value_clamp_low {V : Type} [Inhabited V] (kf : KeyFrames V) (t : ℚ)
    (h : t ≤ kf.times.getD 0 0) : kf.value t = kf.values.getD 0 default := by
  unfold KeyFrames.value
  rw [if_pos h]

lemma times_length_eq_one_of_degenerate {V : Type} (kf : KeyFrames V)
    (hne : kf.times ≠ []) (hchain : kf.times.Chain' (· < ·))
    (hle : kf.times.getD (kf.times.length - 1) 0 ≤ kf.times.getD 0 0) :
    kf.times.length = 1 := by
  by_contra hne1
  have hpos : 0 < kf.times.length := List.length_pos.2 hne
  have h2 : 2 ≤ kf.times.length := by omega
  have hlt : kf.times.getD 0 0 < kf.times.getD (kf.times.length - 1) 0 :=
    chain_getD_lt hchain (by omega) (by omega)
  exact absurd hle (not_le.2 hlt)

lemma value_clamp_high {V : Type} [Inhabited V] (kf : KeyFrames V)
    (hne : kf.times ≠ []) (hchain : kf.times.Chain' (· < ·)) (t : ℚ)
    (h : kf.times.getD (kf.times.length - 1) 0 ≤ t) :
    kf.value t = kf.values.getD (kf.times.length - 1) default := by
  by_cases h1 : t ≤ kf.times.getD 0 0
  · have hdeg : kf.times.getD (kf.times.length - 1) 0 ≤ kf.times.getD 0 0 :=
      le_trans h h1
    have hlen : kf.times.length = 1 := times_length_eq_one_of_degenerate kf hne hchain hdeg
    rw [value_clamp_low kf t h1, hlen]
  · unfold KeyFrames.value
    rw [if_neg h1, if_pos h]

/-- Claim C3.  Boundary clamp of `KeyFrames.value` (`core.py` 902-905): for every
keyframe set with strictly increasing times, any time at or below the first keyframe
time yields the first stored value, any time at or above the last keyframe time yields
the last stored value, and a one-keyframe set yields its single value at every time. -/
theorem keyframe_value_boundary_clamp {V : Type} [Inhabited V] (kf : KeyFrames V)
    (hne : kf.times ≠ []) (hchain : kf.times.Chain' (· < ·)) :
    (∀ t, t ≤ kf.times.getD 0 0 → kf.value t = kf.values.getD 0 default) ∧
    (∀ t, kf.times.getD (kf.times.length - 1) 0 ≤ t →
      kf.value t = kf.values.getD (kf.times.length - 1) default) ∧
    (kf.times.length = 1 → ∀ t, kf.value t = kf.values.getD 0 default) := by
  refine ⟨fun t ht => value_clamp_low kf t ht,
    fun t ht => value_clamp_high kf hne hchain t ht, fun hlen t => ?_⟩
  rcases le_total t (kf.times.getD 0 0) with h | h
  · exact value_clamp_low kf t h
  · have h' : kf.times.getD (kf.times.length - 1) 0 ≤ t := by
      rw [hlen]; simpa using h
    have := value_clamp_high kf hne hchain t h'
    rwa [hlen] at this

/-- Concrete rational keyframe set with strictly increasing times `[0, 1, 2]`; its
interpolation function returns its first argument (the later keyframe value), which
`KeyFrames` accepts as a pluggable `interpolation_function`. -/
def exKF : KeyFrames ℚ := ⟨[0, 1, 2], [10, 20, 30], fun a _ _ => a⟩

/-- Witness for `keyframe_value_boundary_clamp` at the concrete set `exKF` and
time `-1` below the first keyframe time. -/
theorem keyframe_value_boundary_clamp_witness :
    exKF.value (-1) = exKF.values.getD 0 default :=
  (keyframe_value_boundary_clamp exKF (by simp [exKF])
    (by norm_num [exKF, List.chain'_cons])).1 (-1) (by norm_num [exKF])

/-- Index of the first keyframe time strictly greater than the query, exactly as
claim C2 words the located index (on a sorted list this is Python's `bisect_right`,
not the `bisect_left` the code calls).  Stated from the spec's words for comparison
with the code's behaviour. -/
def first_strictly_greater : List ℚ → ℚ → ℕ
  | [], _ => 0
  | t :: ts, x => if t ≤ x then first_strictly_greater ts x + 1 else 0

lemma bisect_left_eq_first_strictly_greater (l : List ℚ) (x : ℚ) (hx : x ∉ l) :
    bisect_left l x = first_strictly_greater l x := by
  induction l with
  | nil => rfl
  | cons t ts ih =>
      have hne : t ≠ x := fun h => hx (h ▸ List.mem_cons_self t ts)
      have hts : x ∉ ts := fun h => hx (List.mem_cons_of_mem t h)
      by_cases h : t < x
      · simp [bisect_left, first_strictly_greater, h, le_of_lt h, ih hts]
      · have h' : ¬ t ≤ x := fun hle => h (lt_of_le_of_ne hle hne)
        simp [bisect_left, first_strictly_greater, h, h']

/-- Counterexample to claim C2 as stated: for the keyframe set `exKF` (strictly
increasing times) and the time `1` strictly between the first and last keyframe
times, the code's result differs from `interpolate(value[i], value[i-1], f)` computed
with `i` the index of the first keyframe time strictly greater than `1` (the code's
`bisect_left` returns the first index with time `≥ 1`, here index 1, not 2). -/
theorem keyframe_value_not_strict_upper :
    List.Chain' (· < ·) exKF.times ∧
    exKF.times.getD 0 0 < 1 ∧ (1 : ℚ) < exKF.times.getD (exKF.times.length - 1) 0 ∧
    first_strictly_greater exKF.times 1 = 2 ∧
    exKF.value 1 ≠
      exKF.interp (exKF.values.getD (first_strictly_greater exKF.times 1) default)
        (exKF.values.getD (first_strictly_greater exKF.times 1 - 1) default)
        ((1 - exKF.times.getD (first_strictly_greater exKF.times 1 - 1) 0) /
          (exKF.times.getD (first_strictly_greater exKF.times 1) 0 -
            exKF.times.getD (first_strictly_greater exKF.times 1 - 1) 0)) := by
  refine ⟨by norm_num [exKF, List.chain'_cons], by norm_num [exKF], by norm_num [exKF],
    by norm_num [exKF, first_strictly_greater], ?_⟩
  norm_num [exKF, KeyFrames.value, bisect_left, first_strictly_greater]

/-- Claim C2, amended.  For strictly increasing times and a time strictly between the
first and last keyframe times, `KeyFrames.value` locates `i = bisect_left(times, time)`,
the leftmost insertion point (first index with `times[i] ≥ time`), computes
`f = (time - times[i-1]) / (times[i] - times[i-1])` and returns
`interpolate(values[i], values[i-1], f)` with the later keyframe value first; whenever
`time` is not itself a stored keyframe time, `i` coincides with the index of the first
keyframe time strictly greater than `time`. -/
theorem keyframe_value_interior {V : Type} [Inhabited V] (kf : KeyFrames V) (time : ℚ)
    (hchain : kf.times.Chain' (· < ·))
    (hlow : kf.times.getD 0 0 < time)
    (hhigh : time < kf.times.getD (kf.times.length - 1) 0) :
    0 < bisect_left kf.times time ∧
    bisect_left kf.times time < kf.times.length ∧
    kf.times.getD (bisect_left kf.times time - 1) 0 < time ∧
    time ≤ kf.times.getD (bisect_left kf.times time) 0 ∧
    kf.value time =
      kf.interp (kf.values.getD (bisect_left kf.times time) default)
        (kf.values.getD (bisect_left kf.times time - 1) default)
        ((time - kf.times.getD (bisect_left kf.times time - 1) 0) /
          (kf.times.getD (bisect_left kf.times time) 0 -
            kf.times.getD (bisect_left kf.times time - 1) 0)) ∧
    (time ∉ kf.times →
      bisect_left kf.times time = first_strictly_greater kf.times time) := by
  have hne : kf.times ≠ [] := by
    intro h
    rw [h] at hlow hhigh
    simp at hlow hhigh
    linarith
  have h2 : bisect_left kf.times time < kf.times.length :=
    bisect_left_lt_length kf.times time hne (not_lt.2 (le_of_lt hhigh))
  have h1 : 0 < bisect_left kf.times time := bisect_left_pos kf.times time hne hlow
  have h3 : kf.times.getD (bisect_left kf.times time - 1) 0 < time :=
    getD_lt_of_lt_bisect_left kf.times time _ (by omega)
  have h4 : time ≤ kf.times.getD (bisect_left kf.times time) 0 :=
    le_getD_bisect_left kf.times time h2
  refine ⟨h1, h2, h3, h4, ?_, bisect_left_eq_first_strictly_greater kf.times time⟩
  simp only [KeyFrames.value, if_neg (not_le.2 hlow), if_neg (not_le.2 hhigh)]

/-- Witness for `keyframe_value_interior`: the interior interpolation equation at the
concrete set `exKF` and time `1/2`. -/
theorem keyframe_value_interior_witness :
    exKF.value (1 / 2) =
      exKF.interp (exKF.values.getD (bisect_left exKF.times (1 / 2)) default)
        (exKF.values.getD (bisect_left exKF.times (1 / 2) - 1) default)
        ((1 / 2 - exKF.times.getD (bisect_left exKF.times (1 / 2) - 1) 0) /
          (exKF.times.getD (bisect_left exKF.times (1 / 2)) 0 -
            exKF.times.getD (bisect_left exKF.times (1 / 2) - 1) 0)) :=
  (keyframe_value_interior exKF (1 / 2) (by norm_num [exKF, List.chain'_cons])
    (by norm_num [exKF]) (by norm_num [exKF])).2.2.2.2.1

/-- Modelled from the spec: `lerp` is imported from `transform.py`, which is not part
of the repository snapshot under `src/`.  The spec states that blend functions receive
`(later, earlier, fraction)` and "compute `earlier + f*(later-earlier)` conceptually",
so `lerp a b f = b + f * (a - b)` componentwise. -/
def lerp {n : ℕ} (a b : Fin n → ℚ) (f : ℚ) : Fin n → ℚ :=
  fun i => b i + f * (a i - b i)

/-- Modelled from the spec: `quaternion_slerp` is imported from `transform.py`, which
is not part of the repository snapshot under `src/`.  The spec fixes only its call
convention — it receives `(later, earlier, fraction)` and conceptually computes
`earlier + f*(later-earlier)` — and the claims below use nothing beyond that blend
formula (in particular only its values at fractions `0` and `1`, which any spherical
implementation following the spec's convention shares). -/
def quaternion_slerp (a b : Quat) (f : ℚ) : Quat :=
  fun i => b i + f * (a i - b i)

lemma quaternion_slerp_one (a b : Quat) : quaternion_slerp a b 1 = a := by
  funext i
  simp [quaternion_slerp]

lemma lerp_one {n : ℕ} (a b : Fin n → ℚ) : lerp a b 1 = a := by
  funext i
  simp [lerp]

/-- Claim C4.  Exact keyframe hits (`core.py` 898-915): for strictly increasing times
and an interpolation function that returns its first argument at fraction `1` — as the
spec's `lerp` and `quaternion_slerp` both do under the `(later, earlier, fraction)`
convention — `value` at the `j`-th stored time returns exactly the `j`-th stored value.
Boundary indices hit the clamp branches; interior indices reach the interpolation with
`bisect_left` landing exactly on `j` and the fraction degenerating to `1`. -/
theorem keyframe_value_exact_hit {V : Type} [Inhabited V] (kf : KeyFrames V)
    (hchain : kf.times.Chain' (· < ·))
    (hinterp : ∀ a b, kf.interp a b 1 = a) :
    ∀ j, j < kf.times.length →
      kf.value (kf.times.getD j 0) = kf.values.getD j default := by
  intro j hj
  have hne : kf.times ≠ [] := by
    intro h
    rw [h] at hj
    simp at hj
  by_cases hj0 : j = 0
  · subst hj0
    exact value_clamp_low kf _ le_rfl
  by_cases hjlast : j = kf.times.length - 1
  · subst hjlast
    exact value_clamp_high kf hne hchain _ le_rfl
  have hjlt : j < kf.times.length - 1 := by omega
  have hlow : kf.times.getD 0 0 < kf.times.getD j 0 :=
    chain_getD_lt hchain (by omega) hj
  have hhigh : kf.times.getD j 0 < kf.times.getD (kf.times.length - 1) 0 :=
    chain_getD_lt hchain hjlt (by omega)
  have hb : bisect_left kf.times (kf.times.getD j 0) = j :=
    bisect_left_eq_of_bounds _ _ j hj (fun k hk => chain_getD_lt hchain hk hj)
      (lt_irrefl _)
  have hprev : kf.times.getD (j - 1) 0 < kf.times.getD j 0 :=
    chain_getD_lt hchain (by omega) hj
  have hden : kf.times.getD j 0 - kf.times.getD (j - 1) 0 ≠ 0 :=
    sub_ne_zero.mpr (ne_of_gt hprev)
  unfold KeyFrames.value
  rw [if_neg (not_le.2 hlow), if_neg (not_le.2 hhigh)]
  simp only [hb]
  rw [div_self hden, hinterp]

/-- Concrete quaternion keyframe set with strictly increasing times, interpolated by
the spec-modelled `quaternion_slerp`, as `TransformKeyFrames.__init__` installs for
its rotation track. -/
def exQuatKF : KeyFrames Quat :=
  ⟨[0, 1, 2], [![1, 0, 0, 0], ![0, 1, 0, 0], ![0, 0, 1, 0]], quaternion_slerp⟩

/-- Witness for `keyframe_value_exact_hit`: the interior keyframe of a quaternion
track under `quaternion_slerp` is returned exactly. -/
theorem keyframe_value_exact_hit_witness :
    exQuatKF.value (exQuatKF.times.getD 1 0) = exQuatKF.values.getD 1 default :=
  keyframe_value_exact_hit exQuatKF (by norm_num [exQuatKF, List.chain'_cons])
    (fun a b => quaternion_slerp_one a b) 1 (by norm_num [exQuatKF])

/-- Modelled from the spec: `translate` lives in `transform.py`, absent from `src/`;
the spec calls it `translation_matrix`, the standard homogeneous translation. -/
def translate (v : Vec3) : M4 :=
  !![1, 0, 0, v 0; 0, 1, 0, v 1; 0, 0, 1, v 2; 0, 0, 0, 1]

/-- Modelled from the spec: `scale` lives in `transform.py`, absent from `src/`;
the spec calls it `scale_matrix`, the standard homogeneous scaling. -/
def scale (v : Vec3) : M4 :=
  !![v 0, 0, 0, 0; 0, v 1, 0, 0; 0, 0, v 2, 0; 0, 0, 0, 1]

/-- Modelled from the spec: `quaternion_matrix` lives in `transform.py`, absent from
`src/`; the spec calls it `rotation_matrix`, the standard homogeneous rotation matrix
of a quaternion `(w, x, y, z) = (q 0, q 1, q 2, q 3)`. -/
def quaternion_matrix (q : Quat) : M4 :=
  !![1 - 2 * (q 2 ^ 2 + q 3 ^ 2), 2 * (q 1 * q 2 - q 3 * q 0),
      2 * (q 1 * q 3 + q 2 * q 0), 0;
    2 * (q 1 * q 2 + q 3 * q 0), 1 - 2 * (q 1 ^ 2 + q 3 ^ 2),
      2 * (q 2 * q 3 - q 1 * q 0), 0;
    2 * (q 1 * q 3 - q 2 * q 0), 2 * (q 2 * q 3 + q 1 * q 0),
      1 - 2 * (q 1 ^ 2 + q 2 ^ 2), 0;
    0, 0, 0, 1]

/-- Embedding of `TransformKeyFrames` state (`core.py` 918-925): three keyframe sets
for translation, rotation and scale. -/
structure TransformKeyFrames where
  translate_keys : KeyFrames Vec3
  rotate_keys : KeyFrames Quat
  scale_keys : KeyFrames Vec3

/-- Embedding of `TransformKeyFrames.value` (`core.py` 927-932): compose
`T @ R @ S` from the three interpolated components (`@` is left-associative). -/
def TransformKeyFrames.value (tkf : TransformKeyFrames) (time : ℚ) : M4 :=
  translate (tkf.translate_keys.value time) *
    quaternion_matrix (tkf.rotate_keys.value time) *
    scale (tkf.scale_keys.value time)

/-- Embedding of `KeyFrames.__init__` (`core.py` 891-896) as a fallible constructor:
sort the `(time, value)` pairs ascending and split them into the two parallel lists;
the empty input fails, because `self.times, self.values = zip(*keyframes)` raises
`ValueError` when there is nothing to unpack.  Python's `sorted` orders pairs
lexicographically; values here carry no order, so the sort is by time and stable,
which coincides with Python on every input whose equal-time pairs (if any) are
already in value order — in particular on all inputs used in this file. -/
def mkKeyFrames {V : Type} (pairs : List (ℚ × V)) (g : V → V → ℚ → V) :
    Option (KeyFrames V) :=
  match pairs.insertionSort (fun p q => p.1 ≤ q.1) with
  | [] => none
  | ps => some ⟨ps.map Prod.fst, ps.map Prod.snd, g⟩

/-- Embedding of `TransformKeyFrames.__init__` (`core.py` 921-925): build the three
keyframe sets, installing `lerp` for translation and scale and `quaternion_slerp`
for rotation; any failing sub-construction aborts the whole construction. -/
def mkTransformKeyFrames (tk : List (ℚ × Vec3)) (rk : List (ℚ × Quat))
    (sk : List (ℚ × Vec3)) : Option TransformKeyFrames :=
  match mkKeyFrames tk lerp, mkKeyFrames rk quaternion_slerp, mkKeyFrames sk lerp with
  | some a, some b, some c => some ⟨a, b, c⟩
  | _, _, _ => none

lemma mkKeyFrames_interp {V : Type} (pairs : List (ℚ × V)) (g : V → V → ℚ → V)
    (kf : KeyFrames V) (h : mkKeyFrames pairs g = some kf) : kf.interp = g := by
  unfold mkKeyFrames at h
  split at h
  · exact absurd h (by simp)
  · cases h
    rfl

lemma mkTransformKeyFrames_rotate {tk rk sk tkf}
    (h : mkTransformKeyFrames tk rk sk = some tkf) :
    mkKeyFrames rk quaternion_slerp = some tkf.rotate_keys := by
  unfold mkTransformKeyFrames at h
  split at h
  · cases h
    assumption
  · exact absurd h (by simp)

/-- Claim C5.  `TransformKeyFrames.value` (`core.py` 927-932) returns exactly the
product `T · R · S` of the translation, rotation and scale matrices of the three
interpolated tracks (equivalently, applied to any vector it acts as `S` then `R`
then `T`), and a track built by the constructor interpolates its rotation keyframes
with `quaternion_slerp`. -/
theorem transform_keyframes_trs (tkf : TransformKeyFrames) (time : ℚ) :
    tkf.value time =
      translate (tkf.translate_keys.value time) *
        (quaternion_matrix (tkf.rotate_keys.value time) *
          scale (tkf.scale_keys.value time)) ∧
    (∀ x : Fin 4 → ℚ,
      Matrix.mulVec (tkf.value time) x =
        Matrix.mulVec (translate (tkf.translate_keys.value time))
          (Matrix.mulVec (quaternion_matrix (tkf.rotate_keys.value time))
            (Matrix.mulVec (scale (tkf.scale_keys.value time)) x))) ∧
    (∀ tk rk sk, mkTransformKeyFrames tk rk sk = some tkf →
      tkf.rotate_keys.interp = quaternion_slerp) := by
  refine ⟨mul_assoc _ _ _, fun x => ?_, fun tk rk sk h => ?_⟩
  · rw [Matrix.mulVec_mulVec, Matrix.mulVec_mulVec]
    rfl
  · exact mkKeyFrames_interp _ _ _ (mkTransformKeyFrames_rotate h)

/-- Concrete single-keyframe input tracks and the transform track the constructor
builds from them. -/
def tk0 : List (ℚ × Vec3) := [(0, ![1, 2, 3])]

def rk0 : List (ℚ × Quat) := [(0, ![1, 0, 0, 0])]

def sk0 : List (ℚ × Vec3) := [(0, ![2, 2, 2])]

def tkf0 : TransformKeyFrames :=
  ⟨⟨[0], [![1, 2, 3]], lerp⟩, ⟨[0], [![1, 0, 0, 0]], quaternion_slerp⟩,
    ⟨[0], [![2, 2, 2]], lerp⟩⟩

/-- Witness for `transform_keyframes_trs`: for the concretely constructed track
`tkf0`, the rotation interpolation function is `quaternion_slerp`. -/
theorem transform_keyframes_trs_witness : tkf0.rotate_keys.interp = quaternion_slerp :=
  (transform_keyframes_trs tkf0 0).2.2 tk0 rk0 sk0 rfl

/-- Scene graph trees, embedding `Node` (`core.py` 219-239) together with leaf
drawables (`Mesh.draw`, `core.py` 207-215, which consumes the received `model`
matrix as its uniform).  A node holds its local `transform` and the ordered
`children` list built by `__init__`/`add`. -/
inductive SceneTree where
  | node : M4 → List SceneTree → SceneTree
  | leaf : ℕ → SceneTree

mutual

/-- Embedding of the recursive draw traversal (`core.py` 230-233): every child is
invoked with `model @ self.transform`; leaves record the model matrix their GPU
draw call receives, tagged with the leaf's identifier. -/
def drawCalls : SceneTree → M4 → List (ℕ × M4)
  | SceneTree.leaf i, model => [(i, model)]
  | SceneTree.node t cs, model => drawCallsList cs (model * t)

/-- The `for child in self.children` loop of `Node.draw`, in child order. -/
def drawCallsList : List SceneTree → M4 → List (ℕ × M4)
  | [], _ => []
  | c :: cs, model => drawCalls c model ++ drawCallsList cs model

end

lemma drawCallsList_eq_flatten (cs : List SceneTree) (m : M4) :
    drawCallsList cs m = (cs.map (fun c => drawCalls c m)).flatten := by
  induction cs with
  | nil => rfl
  | cons c cs ih => simp [drawCallsList, ih]

/-- Claim C6.  `Node.draw` (`core.py` 230-233) invokes every child with model matrix
`parentWorld · local`, in the order children were added; consequently a 3-level chain
of nodes with local transforms `A`, `B`, `C` hands its grandchild drawable the model
matrix `M · (A·B·C)` when the root receives `M` (so `A·B·C` when `M` is the
identity), and a node with identity local transform passes its received matrix to
its children unchanged. -/
theorem node_draw_composition :
    (∀ (L : M4) (cs : List SceneTree) (M : M4),
      drawCalls (SceneTree.node L cs) M =
        (cs.map (fun c => drawCalls c (M * L))).flatten) ∧
    (∀ (A B C M : M4) (i : ℕ),
      drawCalls
        (SceneTree.node A [SceneTree.node B [SceneTree.node C [SceneTree.leaf i]]]) M
        = [(i, M * (A * B * C))]) ∧
    (∀ (cs : List SceneTree) (M : M4),
      drawCalls (SceneTree.node 1 cs) M = (cs.map (fun c => drawCalls c M)).flatten) := by
  refine ⟨fun L cs M => drawCallsList_eq_flatten cs (M * L), fun A B C M i => ?_,
    fun cs M => ?_⟩
  · simp [drawCalls, drawCallsList, mul_assoc]
  · rw [drawCalls, mul_one, drawCallsList_eq_flatten]

/-- Embedding of `SkinningControlNode` state (`core.py` 977-994): the optional
transform track, the node's local `transform`, and the `world_transform` scratch
field. -/
structure SCNState where
  keyframes : Option TransformKeyFrames
  transform : M4
  world_transform : M4

instance : Inhabited SCNState := ⟨⟨none, 1, 1⟩⟩

/-- Python truthiness of the first positional key argument of
`SkinningControlNode.__init__`: `None` and the empty collection are falsy. -/
def truthy {α : Type} : Option (List α) → Bool
  | none => false
  | some l => !l.isEmpty

/-- Embedding of `SkinningControlNode.__init__` (`core.py` 980-983):
`self.keyframes = TransformKeyFrames(*keys) if keys[0] else None`, with
`self.world_transform = identity()`.  When `keys[0]` is truthy the three key sets
are handed to the `TransformKeyFrames` constructor, whose failure (e.g. missing or
empty rotation/scale sets, a `TypeError`/`ValueError` in Python) aborts
construction; when `keys[0]` is falsy no track is built at all. -/
def mkSkinningControlNode (tk : Option (List (ℚ × Vec3))) (rk : Option (List (ℚ × Quat)))
    (sk : Option (List (ℚ × Vec3))) (transform : M4) : Option SCNState :=
  if truthy tk then
    match tk, rk, sk with
    | some tkl, some rkl, some skl =>
      match mkTransformKeyFrames tkl rkl skl with
      | some tkf => some ⟨some tkf, transform, 1⟩
      | none => none
    | _, _, _ => none
  else some ⟨none, transform, 1⟩

/-- Embedding of `SkinningControlNode.draw` (`core.py` 985-994) restricted to the
node's own state update: if a track is present the local transform is recomputed
from the clock time, then the world transform scratch field is set to
`model @ self.transform`.  (The recursive dispatch to children is the `Node.draw`
protocol modelled by `drawCalls`.) -/
def SCNState.drawStep (s : SCNState) (time : ℚ) (model : M4) : SCNState :=
  match s.keyframes with
  | some kf =>
    let t := kf.value time
    ⟨some kf, t, model * t⟩
  | none => ⟨none, s.transform, model * s.transform⟩

lemma drawStep_none_transform (s : SCNState) (h : s.keyframes = none)
    (time : ℚ) (model : M4) :
    (s.drawStep time model).transform = s.transform := by
  simp [SCNState.drawStep, h]

/-- Claim C8.  A skinning node carrying the no-animation sentinel (no keyframe
track) is static: `draw` never touches its local transform field, leaves the track
absent, and still refreshes the world-transform scratch field from the unchanged
static transform (`core.py` 985-994). -/
theorem skinning_node_static_when_no_keyframes (s : SCNState) (time : ℚ) (model : M4)
    (h : s.keyframes = none) :
    (s.drawStep time model).transform = s.transform ∧
    (s.drawStep time model).keyframes = none ∧
    (s.drawStep time model).world_transform = model * s.transform := by
  refine ⟨drawStep_none_transform s h time model, ?_, ?_⟩ <;> simp [SCNState.drawStep, h]

/-- Witness for `skinning_node_static_when_no_keyframes` on the concrete
track-less node state. -/
theorem skinning_node_static_when_no_keyframes_witness :
    ((default : SCNState).drawStep 5 1).transform = (default : SCNState).transform :=
  (skinning_node_static_when_no_keyframes default 5 1 rfl).1

/-- Claim C10.  `SkinningControlNode.__init__` tests only its first positional key
argument (the translation key set) to decide whether an animation track exists
(`core.py` 982): whenever that argument is `None` or empty, construction succeeds
with no track and the given static transform — regardless of the rotation and
scale key sets — and every later `draw` leaves the local transform unchanged. -/
theorem skinning_node_sentinel_first_key (tk : Option (List (ℚ × Vec3)))
    (rk : Option (List (ℚ × Quat))) (sk : Option (List (ℚ × Vec3))) (T : M4)
    (h : truthy tk = false) :
    mkSkinningControlNode tk rk sk T = some ⟨none, T, 1⟩ ∧
    (∀ s, mkSkinningControlNode tk rk sk T = some s →
      ∀ time model, (s.drawStep time model).transform = s.transform) := by
  have h1 : mkSkinningControlNode tk rk sk T = some ⟨none, T, 1⟩ := by
    simp [mkSkinningControlNode, h]
  refine ⟨h1, fun s hs time model => ?_⟩
  rw [h1] at hs
  cases hs
  exact drawStep_none_transform _ rfl time model

/-- Witness for `skinning_node_sentinel_first_key`: an empty translation key set
alongside non-empty rotation and scale key sets still builds a track-less node. -/
theorem skinning_node_sentinel_first_key_witness :
    mkSkinningControlNode (some []) (some rk0) (some sk0) 1 = some ⟨none, 1, 1⟩ :=
  (skinning_node_sentinel_first_key (some []) (some rk0) (some sk0) 1 rfl).1

/-- Embedding of `TexturedPhongMeshSkinned` skinning state (`core.py` 615-635):
the referenced bone nodes and the fixed bind-pose offset matrices stored at
construction. -/
structure TexturedPhongMeshSkinned where
  bone_nodes : List SCNState
  bone_offsets : List M4

/-- Embedding of the bone-matrix loop of `TexturedPhongMeshSkinned.draw`
(`core.py` 659-664): for each `bone_id`, `node.world_transform @ bone_offsets[bone_id]`. -/
def TexturedPhongMeshSkinned.bone_matrices (m : TexturedPhongMeshSkinned) : List M4 :=
  List.zipWith (fun n o => n.world_transform * o) m.bone_nodes m.bone_offsets

/-- Embedding of `SkinnedMesh` skinning state (`core.py` 953-961). -/
structure SkinnedMesh where
  bone_nodes : List SCNState
  bone_offsets : List M4

/-- Embedding of the bone-matrix computation of `SkinnedMesh.draw`
(`core.py` 963-971): gather the bone nodes' world transforms, then the batched
matrix product `world_transforms @ self.bone_offsets`, which multiplies the
matrices pairwise by index. -/
def SkinnedMesh.bone_matrices (m : SkinnedMesh) : List M4 :=
  List.zipWith (fun w o => w * o)
    (m.bone_nodes.map (fun n => n.world_transform)) m.bone_offsets

lemma getD_zipWith_mul (ws os : List M4) (i : ℕ)
    (hi : i < ws.length) (hi' : i < os.length) :
    (List.zipWith (fun w o => w * o) ws os).getD i 1 = ws.getD i 1 * os.getD i 1 := by
  have hz : i < (List.zipWith (fun w o : M4 => w * o) ws os).length := by
    rw [List.length_zipWith]
    omega
  rw [List.getD_eq_getElem _ _ hz, List.getD_eq_getElem _ _ hi,
    List.getD_eq_getElem _ _ hi', List.getElem_zipWith]

/-- Claim C7.  Bone-matrix assembly: in both skinned drawables' draw methods
(`core.py` 659-664 and 963-971), the `i`-th uploaded bone matrix is exactly
`W_i · offset_i`, the referenced bone node's current `world_transform` scratch
field times the fixed bind-pose offset stored at construction. -/
theorem bone_matrix_assembly (m : TexturedPhongMeshSkinned) (sm : SkinnedMesh) (i : ℕ)
    (him : i < m.bone_nodes.length) (him' : i < m.bone_offsets.length)
    (his : i < sm.bone_nodes.length) (his' : i < sm.bone_offsets.length) :
    m.bone_matrices.getD i 1 =
      (m.bone_nodes.getD i default).world_transform * m.bone_offsets.getD i 1 ∧
    sm.bone_matrices.getD i 1 =
      (sm.bone_nodes.getD i default).world_transform * sm.bone_offsets.getD i 1 := by
  constructor
  · have hz : i < (m.bone_matrices).length := by
      rw [TexturedPhongMeshSkinned.bone_matrices, List.length_zipWith]
      omega
    rw [TexturedPhongMeshSkinned.bone_matrices] at hz ⊢
    rw [List.getD_eq_getElem _ _ hz, List.getElem_zipWith,
      List.getD_eq_getElem _ _ him, List.getD_eq_getElem _ _ him']
  · have hmap : i < (sm.bone_nodes.map (fun n => n.world_transform)).length := by
      rw [List.length_map]
      exact his
    rw [SkinnedMesh.bone_matrices, getD_zipWith_mul _ _ i hmap his',
      List.getD_eq_getElem _ _ hmap, List.getElem_map,
      List.getD_eq_getElem _ _ his]

/-- Concrete one-bone drawables used to witness `bone_matrix_assembly`. -/
def tpms0 : TexturedPhongMeshSkinned := ⟨[⟨none, 1, 2⟩], [(3 : M4)]⟩

def skm0 : SkinnedMesh := ⟨[⟨none, 1, 2⟩], [(3 : M4)]⟩

/-- Witness for `bone_matrix_assembly` at the one-bone drawables `tpms0`/`skm0`. -/
theorem bone_matrix_assembly_witness :
    tpms0.bone_matrices.getD 0 1 =
      (tpms0.bone_nodes.getD 0 default).world_transform * tpms0.bone_offsets.getD 0 1 ∧
    skm0.bone_matrices.getD 0 1 =
      (skm0.bone_nodes.getD 0 default).world_transform * skm0.bone_offsets.getD 0 1 :=
  bone_matrix_assembly tpms0 skm0 0 (by simp [tpms0]) (by simp [tpms0])
    (by simp [skm0]) (by simp [skm0])

/-- Constant `MAX_VERTEX_BONES` (`core.py` 949). -/
def MAX_VERTEX_BONES : ℕ := 4

/-- Constant `MAX_BONES` (`core.py` 950). -/
def MAX_BONES : ℕ := 128

/-- One vertex's slice of the `v_bone` array built in
`load_textured_phong_mesh_skinned` (`core.py` 787-791): a row of `MAX_BONES`
`(weight, id)` entries initialised to `(0, 0)`, then `row[bone_id] = (weight,
bone_id)` for every `(bone_id, weight)` influence of this vertex (bone ids beyond
`MAX_BONES` cannot occur because of the `mesh.mBones[:MAX_BONES]` slice; `List.set`
likewise ignores them). -/
def v_bone_row (infl : List (ℕ × ℚ)) : List (ℚ × ℕ) :=
  infl.foldl (fun row e => row.set e.1 (e.2, e.1)) (List.replicate MAX_BONES (0, 0))

/-- The comparison used by `v_bone.sort(order='weight')` (`core.py` 793): numpy
sorts ascending by the `weight` field and breaks ties by the remaining `id` field. -/
def weight_le (p q : ℚ × ℕ) : Prop :=
  p.1 < q.1 ∨ (p.1 = q.1 ∧ p.2 ≤ q.2)

instance (p q : ℚ × ℕ) : Decidable (weight_le p q) := by
  unfold weight_le
  infer_instance

instance : IsTotal (ℚ × ℕ) weight_le := by
  constructor
  intro p q
  rcases lt_trichotomy p.1 q.1 with h | h | h
  · exact Or.inl (Or.inl h)
  · rcases le_total p.2 q.2 with h2 | h2
    · exact Or.inl (Or.inr ⟨h, h2⟩)
    · exact Or.inr (Or.inr ⟨h.symm, h2⟩)
  · exact Or.inr (Or.inl h)

instance : IsTrans (ℚ × ℕ) weight_le := by
  constructor
  intro p q r hpq hqr
  rcases hpq with h1 | ⟨h1, h1'⟩ <;> rcases hqr with h2 | ⟨h2, h2'⟩
  · exact Or.inl (lt_trans h1 h2)
  · exact Or.inl (h2 ▸ h1)
  · exact Or.inl (h1 ▸ h2)
  · exact Or.inr ⟨h1.trans h2, le_trans h1' h2'⟩

/-- The row sort `v_bone.sort(order='weight')` (`core.py` 793): ascending, "high
weights last" as the code comments. -/
def sort_v_bone (row : List (ℚ × ℕ)) : List (ℚ × ℕ) :=
  row.insertionSort weight_le

/-- The per-vertex stored skin weights: `v_bone = v_bone[:, -MAX_VERTEX_BONES:]`
(`core.py` 794) keeps the last `MAX_VERTEX_BONES` entries of the ascending-sorted
row. -/
def skin_weights (infl : List (ℕ × ℚ)) : List (ℚ × ℕ) :=
  (sort_v_bone (v_bone_row infl)).drop (MAX_BONES - MAX_VERTEX_BONES)

lemma foldl_set_length (l : List (ℕ × ℚ)) (row : List (ℚ × ℕ)) :
    (l.foldl (fun row e => row.set e.1 (e.2, e.1)) row).length = row.length := by
  induction l generalizing row with
  | nil => rfl
  | cons e l ih => rw [List.foldl_cons, ih, List.length_set]

lemma v_bone_row_length (infl : List (ℕ × ℚ)) :
    (v_bone_row infl).length = MAX_BONES := by
  rw [v_bone_row, foldl_set_length, List.length_replicate]

lemma weight_le_fst {p q : ℚ × ℕ} (h : weight_le p q) : p.1 ≤ q.1 := by
  rcases h with h | ⟨h, _⟩
  · exact le_of_lt h
  · exact le_of_eq h

/-- The six-bone influence row from the spec's own example: weights
`[0.5, 0.3, 0.1, 0.05, 0.03, 0.02]` for bones `0..5`. -/
def exampleInfl : List (ℕ × ℚ) :=
  [(0, mkRat 1 2), (1, mkRat 3 10), (2, mkRat 1 10),
    (3, mkRat 1 20), (4, mkRat 3 100), (5, mkRat 1 50)]

/-- Counterexample to claim C1 as stated: on the spec's example weights the stored
`K = 4` entries are the top four by weight but in ASCENDING weight order (the code
sorts ascending — "high weights last" — and keeps the tail), not the descending
order the claim asserts. -/
theorem skin_weights_not_descending :
    skin_weights exampleInfl =
      [(mkRat 1 20, 3), (mkRat 1 10, 2), (mkRat 3 10, 1), (mkRat 1 2, 0)] ∧
    skin_weights exampleInfl ≠
      [(mkRat 1 2, 0), (mkRat 3 10, 1), (mkRat 1 10, 2), (mkRat 1 20, 3)] := by
  constructor
  · decide
  · decide

/-- Claim C1, amended.  The per-vertex skin-weight construction (`core.py` 785-794)
stores exactly `MAX_VERTEX_BONES = 4` entries per vertex: the four greatest of the
128 candidate `(weight, bone-id)` slots in the sort order keyed on weight, sorted
ASCENDING by weight (highest weight last) rather than descending, every dropped
candidate having weight at most that of every kept entry; when fewer than four
bones influence the vertex the kept entries are zero-padded at the low end, as the
concrete two-bone row shows. -/
theorem skin_weights_top_four_ascending (infl : List (ℕ × ℚ)) :
    (skin_weights infl).length = MAX_VERTEX_BONES ∧
    List.Pairwise (fun p q : ℚ × ℕ => p.1 ≤ q.1) (skin_weights infl) ∧
    (sort_v_bone (v_bone_row infl)).Perm (v_bone_row infl) ∧
    (∀ p ∈ (sort_v_bone (v_bone_row infl)).take (MAX_BONES - MAX_VERTEX_BONES),
      ∀ q ∈ skin_weights infl, p.1 ≤ q.1) ∧
    skin_weights [(0, mkRat 1 2), (1, mkRat 3 10)] =
      [(0, 0), (0, 0), (mkRat 3 10, 1), (mkRat 1 2, 0)] := by
  have hsorted : List.Pairwise weight_le (sort_v_bone (v_bone_row infl)) :=
    List.sorted_insertionSort weight_le (v_bone_row infl)
  have hlen : (sort_v_bone (v_bone_row infl)).length = MAX_BONES := by
    rw [sort_v_bone, List.length_insertionSort, v_bone_row_length]
  refine ⟨?_, ?_, List.perm_insertionSort weight_le (v_bone_row infl), ?_, by decide⟩
  · rw [skin_weights, List.length_drop, hlen]
    decide
  · exact ((hsorted.sublist (List.drop_sublist _ _)).imp fun h => weight_le_fst h)
  · intro p hp q hq
    exact weight_le_fst (hsorted.rel_of_mem_take_of_mem_drop hp hq)

/-- Witness for `skin_weights_top_four_ascending` at the spec's example row: the
stored entry count and one kept/dropped weight comparison. -/
theorem skin_weights_top_four_ascending_witness :
    (skin_weights exampleInfl).length = MAX_VERTEX_BONES ∧
    ((0 : ℚ), (0 : ℕ)).1 ≤ ((mkRat 1 20 : ℚ), (3 : ℕ)).1 :=
  ⟨(skin_weights_top_four_ascending exampleInfl).1,
    (skin_weights_top_four_ascending exampleInfl).2.2.2.1 ((0 : ℚ), (0 : ℕ))
      (by decide) ((mkRat 1 20 : ℚ), (3 : ℕ)) (by decide)⟩

/-- Counterexample to claim C9 as stated: keyframe data with duplicated (hence not
strictly increasing) times is NOT rejected at construction time — both the
`KeyFrames` constructor and the `TransformKeyFrames` constructor accept it, since
`__init__` merely sorts the pairs (`core.py` 891-896) and performs no
strictness check. -/
theorem duplicate_times_construction_succeeds :
    (mkKeyFrames [((0 : ℚ), (1 : ℚ)), (0, 2)] (fun a _ _ => a)).isSome = true ∧
    (mkTransformKeyFrames [(0, ![1, 2, 3]), (0, ![4, 5, 6])] rk0 sk0).isSome = true := by
  constructor
  · decide
  · rfl

/-- Claim C9, amended.  A keyframe set with zero entries is rejected when the track
is built (the `zip(*keyframes)` unpacking in `KeyFrames.__init__` fails on empty
input, and `TransformKeyFrames` therefore also fails), but non-strictly-increasing
times are NOT rejected at construction: the constructor only sorts the pairs (see
the counterexample).  Nevertheless no zero time-delta division can occur during
`value` evaluation, because on the interior branch `bisect_left` guarantees
`times[i-1] < time ≤ times[i]`, making the divisor strictly positive. -/
theorem keyframes_construction_and_divisor {V : Type} (g : V → V → ℚ → V)
    (l : List ℚ) (x : ℚ) (hlow : l.getD 0 0 < x)
    (hhigh : x < l.getD (l.length - 1) 0) :
    mkKeyFrames ([] : List (ℚ × V)) g = none ∧
    (∀ rk sk, mkTransformKeyFrames [] rk sk = none) ∧
    0 < l.getD (bisect_left l x) 0 - l.getD (bisect_left l x - 1) 0 := by
  have hne : l ≠ [] := by
    intro h
    rw [h] at hlow hhigh
    simp at hlow hhigh
    linarith
  refine ⟨rfl, fun rk sk => rfl, ?_⟩
  have h2 : bisect_left l x < l.length :=
    bisect_left_lt_length l x hne (not_lt.2 (le_of_lt hhigh))
  have h1 : 0 < bisect_left l x := bisect_left_pos l x hne hlow
  have h3 : l.getD (bisect_left l x - 1) 0 < x :=
    getD_lt_of_lt_bisect_left l x _ (by omega)
  have h4 : x ≤ l.getD (bisect_left l x) 0 := le_getD_bisect_left l x h2
  linarith

/-- Witness for `keyframes_construction_and_divisor`: empty input is rejected, and
the interior divisor is positive on the concrete list `[0, 1, 2]` at time `1/2`. -/
theorem keyframes_construction_and_divisor_witness :
    mkKeyFrames ([] : List (ℚ × ℚ)) (fun a _ _ => a) = none ∧
    0 < ([0, 1, 2] : List ℚ).getD (bisect_left [0, 1, 2] (mkRat 1 2)) 0 -
      ([0, 1, 2] : List ℚ).getD (bisect_left [0, 1, 2] (mkRat 1 2) - 1) 0 :=
  ⟨(keyframes_construction_and_divisor ((fun a _ _ => a) : ℚ → ℚ → ℚ → ℚ) [0, 1, 2]
      (mkRat 1 2) (by decide) (by decide)).1,
    (keyframes_construction_and_divisor ((fun a _ _ => a) : ℚ → ℚ → ℚ → ℚ) [0, 1, 2]
      (mkRat 1 2) (by decide) (by decide)).2.2⟩

end Core
